import Mathlib

/-!
# Verification of the PDFDailyDigestBot core

A shallow embedding of the reading-progress core of `PDFDailyDigestBot.py`:
the paragraph segmentation engine (`Document.get_next_paragraph`), the
progress computation (`Document.get_progress_percentage`), and the
document-store operations (`save_document`, `activate_document`, the
ingestion gate of `handle_document_upload`).

Text is modelled as `List Char`; Python integers as `Nat` (all relevant
quantities are non-negative indices and lengths).
-/

set_option autoImplicit false

/-! ## Segmentation engine: `Document.get_next_paragraph` -/

/-- `char in ['.', '!', '?']` -/
def isPunct (c : Char) : Bool :=
  c = '.' || c = '!' || c = '?'

/-- `remaining_content[i+1] == ' ' or remaining_content[i+1] == '\n'` -/
def isSpaceNl (c : Char) : Bool :=
  c = ' ' || c = '\n'

/-- Characters removed by Python's `str.strip()` with no argument. -/
def isPyWhitespace (c : Char) : Bool :=
  c = ' ' || c = '\t' || c = '\n' || c = '\r' || c = '\x0b' || c = '\x0c'

/-- Python `s.strip()`: remove leading and trailing whitespace. -/
def stripChars (l : List Char) : List Char :=
  ((l.dropWhile isPyWhitespace).reverse.dropWhile isPyWhitespace).reverse

/-- Python `s.rfind(' ')`: index of the last space, `none` when absent
(Python returns `-1`). -/
def rfindSpace : List Char → Option Nat
  | [] => none
  | c :: rest =>
    match rfindSpace rest with
    | some j => some (j + 1)
    | none => if c = ' ' then some 0 else none

/-- The natural-boundary test of the scan loop, evaluated on the suffix
`remaining_content[i:]`: the character at `i` is one of `. ! ?` and the
immediately following character exists (`i + 1 < len(remaining_content)`)
and is a space or newline. -/
def naturalCond : List Char → Bool
  | c :: c2 :: _ => isPunct c && isSpaceNl c2
  | _ => false

/-- The 100-character look-back slice of the hard-cap rule:
`remaining_content[max(0, i-100) : i+1]` (`Nat` subtraction is the
`max(0, ·)` of the Python source). -/
def hardCapWindow (r : List Char) (i : Nat) : List Char :=
  (r.drop (i - 100)).take (i + 1 - (i - 100))

/-- The hard-cap cut position (relative to the scan start), from
`remaining_content` and the current index `i`:
`last_part = remaining_content[max(0, i-100):i+1]`,
`last_space = last_part.rfind(' ')`, and the cut is
`i - (len(last_part) - last_space) + 1` when a space is found (written
`i + 1 + j - len(last_part)`, the same integer, reassociated so that `Nat`
subtraction never truncates), else `i + 1`. -/
def hardCapCut (r : List Char) (i : Nat) : Nat :=
  match rfindSpace (hardCapWindow r i) with
  | some j => i + 1 + j - (hardCapWindow r i).length
  | none => i + 1

/-- The scan loop of `get_next_paragraph` over `remaining_content`.
`r` is the whole remaining content (for the backward look of the hard cap),
`fuel` is the suffix `r.drop i` still to be examined, `i` the current index
(`current_length = i + 1`).  Returns the relative cut position
(`paragraph_end - current_position`) when `found_end` is set, `none` when
the loop finishes without a cut. -/
def scanAux (mn mx : Nat) (r : List Char) : List Char → Nat → Option Nat
  | [], _ => none
  | c :: rest, i =>
    if naturalCond (c :: rest) = true ∧ mn ≤ i + 1 then
      some (i + 1)
    else if mx ≤ i + 1 then
      some (hardCapCut r i)
    else
      scanAux mn mx r rest (i + 1)

/-- The whole scan, started at index 0. -/
def scanFrom (r : List Char) (mn mx : Nat) : Option Nat :=
  scanAux mn mx r r 0

/-- The terminal message `"Fin del documento."` returned once the cursor
has reached the end of the content. -/
def finDelDocumento : List Char :=
  "Fin del documento.".data

/-- Result of one `get_next_paragraph` call: the returned paragraph, the
updated `current_position`, and the `es_final` flag. -/
structure FragResult where
  fragment : List Char
  newOffset : Nat
  isFinal : Bool
deriving DecidableEq, Repr

/-- The absolute cut position: `paragraph_end` after the loop —
`current_position + cut` when the loop set `found_end`, otherwise
`len(self.content)`. -/
def paragraphEnd (content : List Char) (pos mn mx : Nat) : Nat :=
  match scanFrom (content.drop pos) mn mx with
  | some rel => pos + rel
  | none => content.length

/-- `Document.get_next_paragraph(self, min_length=100, max_length=500)`.
Terminal branch: `current_position >= len(content)` returns
`("Fin del documento.", True)` without moving the cursor.  Otherwise the
paragraph is `content[current_position:paragraph_end].strip()`, the cursor
becomes `paragraph_end`, and `es_final = (paragraph_end >= len(content))`. -/
def get_next_paragraph (content : List Char) (pos mn mx : Nat) : FragResult :=
  if content.length ≤ pos then
    ⟨finDelDocumento, pos, true⟩
  else
    let pEnd := paragraphEnd content pos mn mx
    ⟨stripChars ((content.drop pos).take (pEnd - pos)), pEnd,
      decide (content.length ≤ pEnd)⟩

/-! ### IEEE-754 binary64 model for the progress percentage

`Document.get_progress_percentage` computes
`int((current_position / len(content)) * 100)` in Python **float**
arithmetic: a correctly-rounded binary64 division of the two integers
(CPython's `int.__truediv__` rounds the exact rational to nearest, ties to
even, for operands of any size), a correctly-rounded binary64
multiplication by 100, then `int()` truncation toward zero.  The exact
integer floor `pos * 100 / len` is *not* a faithful model: e.g. for
`pos = 2900, len = 10000` the float value of `0.29 * 100` is
`28.999999999999996`, so the program reports 28 where the exact floor is
29.  The model below implements round-to-nearest-even at 53 significant
bits with an unbounded exponent: identical to IEEE-754 binary64 away from
overflow and underflow, i.e. for every ratio between `2^-1022` and
`2^1024`, far beyond any physical document. -/

/-- `⌊log2 n⌋` (0 for `n ≤ 1`) by fueled halving; 1100 halvings cover
every magnitude within (and far beyond) the binary64 exponent range while
remaining kernel-evaluable. -/
def natLog2Aux : Nat → Nat → Nat
  | 0, _ => 0
  | fuel + 1, n => if n ≤ 1 then 0 else natLog2Aux fuel (n / 2) + 1

/-- `⌊log2 n⌋` for `n ≥ 1` (and 0 at 0). -/
def natLog2 (n : Nat) : Nat := natLog2Aux 1100 n

/-- `⌈log2 n⌉` for `n ≥ 1`: the least `m` with `n ≤ 2 ^ m`. -/
def natClog2 (n : Nat) : Nat :=
  if n ≤ 1 then 0 else natLog2 (n - 1) + 1

/-- `⌊log2 (a / b)⌋` of the positive rational `a / b`.  For `a ≥ b` it is
`⌊log2 ⌊a / b⌋⌋`; for `a < b` it is `-m` where `2 ^ m` is the least power
of two with `b ≤ 2 ^ m * a`, i.e. `m = ⌈log2 ⌈b / a⌉⌉` with
`⌈b / a⌉ = (b - 1) / a + 1`. -/
def ratLog2 (a b : Nat) : Int :=
  if b ≤ a then (natLog2 (a / b) : Int)
  else -(natClog2 ((b - 1) / a + 1) : Int)

/-- Round the non-negative rational `num / den` to the nearest integer,
ties to even. -/
def roundNearestEven (num den : Nat) : Nat :=
  if 2 * (num % den) < den then num / den
  else if den < 2 * (num % den) then num / den + 1
  else if (num / den) % 2 = 0 then num / den else num / den + 1

/-- The binary64 value nearest the positive rational `a / b` (round to
nearest, ties to even, 53 significant bits), as a significand/exponent
pair `(m, e)` of value `m * 2 ^ e` with `2 ^ 52 ≤ m ≤ 2 ^ 53`: scale by
`2 ^ (52 - ⌊log2 (a/b)⌋)` and round the scaled rational to an integer. -/
def fpRoundRat (a b : Nat) : Nat × Int :=
  if (0 : Int) ≤ ratLog2 a b - 52 then
    (roundNearestEven a (b * 2 ^ (ratLog2 a b - 52).toNat), ratLog2 a b - 52)
  else
    (roundNearestEven (a * 2 ^ (-(ratLog2 a b - 52)).toNat) b, ratLog2 a b - 52)

/-- Correctly-rounded binary64 product `x * 100` for a positive double
`x = m * 2 ^ e`: the exact product is `(100 * m) * 2 ^ e`, and rounding it
to 53 significant bits renormalizes the integer `100 * m` (the power of
two is exact). -/
def fpMul100 (m : Nat) (e : Int) : Nat × Int :=
  ((fpRoundRat (100 * m) 1).1, (fpRoundRat (100 * m) 1).2 + e)

/-- `int()` truncation of the non-negative double `m * 2 ^ e`: the floor. -/
def fpFloor (m : Nat) (e : Int) : Nat :=
  if 0 ≤ e then m * 2 ^ e.toNat else m / 2 ^ (-e).toNat

/-- `int((pos / len) * 100)` as CPython evaluates it: correctly-rounded
binary64 division (exactly 0 for `pos = 0`), correctly-rounded binary64
multiplication by 100, truncation toward zero. -/
def pyProgressValue (pos len : Nat) : Nat :=
  if pos = 0 then 0
  else
    match fpRoundRat pos len with
    | (m, e) =>
      match fpMul100 m e with
      | (m2, e2) => fpFloor m2 e2

/-- `Document.get_progress_percentage`: `0` for empty content, else
`min(100, int((current_position / len(content)) * 100))` with the inner
expression evaluated in binary64 float arithmetic (`pyProgressValue`). -/
def get_progress_percentage (content : List Char) (pos : Nat) : Nat :=
  if content.length = 0 then 0
  else min 100 (pyProgressValue pos content.length)

/-- The progress formula exactly as the specification words it, in exact
real arithmetic: `min(100, floor(newOffset / len(text) * 100))`. -/
def specProgressFormula (newOffset len : Nat) : Nat :=
  min 100 (newOffset * 100 / len)

/-- A 1000-character text on which the float rounding of the progress
percentage is observable at a reachable cursor: the two sentence
boundaries put the cursor at offset 145 after one default-length advance
and at offset 290 after two, and `int((290 / 1000) * 100)` is 28 in
binary64 (the exact floor is 29). -/
def floatBoundaryText : List Char :=
  List.replicate 144 'a' ++ '.' :: ' ' :: List.replicate 143 'a'
    ++ '.' :: ' ' :: List.replicate 709 'a'

/-! ## Cursor iteration (for the partition property)

Both call sites of the repository (`next_paragraph_command` and
`send_daily_paragraph`) invoke `get_next_paragraph()` with the default
arguments `min_length=100, max_length=500`. -/

/-- The cursor after one call at the default lengths. -/
def nextOffset (content : List Char) (pos : Nat) : Nat :=
  (get_next_paragraph content pos 100 500).newOffset

/-- The value of the paragraph before `strip()` is applied:
`content[current_position:paragraph_end]`. -/
def untrimmedFragment (content : List Char) (pos : Nat) : List Char :=
  (content.drop pos).take (nextOffset content pos - pos)

/-- The cursor after `n` successive calls starting from offset 0. -/
def offsetAfter (content : List Char) : Nat → Nat
  | 0 => 0
  | n + 1 => nextOffset content (offsetAfter content n)

/-- The concatenation of the first `n` untrimmed fragments, reading from
offset 0. -/
def collectUntrimmed (content : List Char) : Nat → List Char
  | 0 => []
  | n + 1 => collectUntrimmed content n
      ++ untrimmedFragment content (offsetAfter content n)

/-! ## Document store: `save_document`, `activate_document`, and the
ingestion gate of `handle_document_upload` -/

/-- A `Document` row: id, owner, filename, extracted text, cursor, active
flag (timestamps are irrelevant to the claims). -/
structure Document where
  id : Nat
  userId : Nat
  filename : List Char
  content : List Char
  currentPosition : Nat
  active : Bool
deriving DecidableEq, Repr

/-- `for doc in user.documents: doc.active = False` — the loop at the top
of `save_document`, touching exactly the requesting user's documents. -/
def deactivateUserDocs (docs : List Document) (uid : Nat) : List Document :=
  docs.map fun d => if d.userId = uid then { d with active := false } else d

/-- `save_document`: deactivate every document of the user, then insert
the new document with `current_position=0, active=True`. -/
def save_document (docs : List Document) (uid newId : Nat)
    (filename content : List Char) : List Document :=
  deactivateUserDocs docs uid ++ [⟨newId, uid, filename, content, 0, true⟩]

/-- `activate_document`: look the document up by `(id, user_id)`; when
absent return `None` leaving the store untouched; otherwise set
`doc.active = (doc.id == document_id)` on every document of the user.
The `Bool` reports whether a document was found. -/
def activate_document (docs : List Document) (document_id uid : Nat) :
    List Document × Bool :=
  match docs.find? (fun d => decide (d.id = document_id ∧ d.userId = uid)) with
  | none => (docs, false)
  | some _ =>
      (docs.map fun d =>
        if d.userId = uid then { d with active := decide (d.id = document_id) }
        else d, true)

/-- The ingestion rejection of `handle_document_upload`. -/
inductive IngestError where
  | emptyExtraction
deriving DecidableEq, Repr

/-- The store effect of `handle_document_upload` after extraction:
`if not text or len(text.strip()) < 10:` reply and return — the database
session is never opened, so the store is unchanged; otherwise
`save_document` runs inside the session. Returns the resulting store and
the error, if any. -/
def handle_document_upload (docs : List Document) (uid newId : Nat)
    (filename text : List Char) : List Document × Option IngestError :=
  if text.length = 0 ∨ (stripChars text).length < 10 then
    (docs, some IngestError.emptyExtraction)
  else
    (save_document docs uid newId filename text, none)

/-! ## Store invariants -/

/-- No two distinct store rows are active documents of the same user. -/
def noDoubleActive (a b : Document) : Prop :=
  ¬(a.userId = b.userId ∧ a.active = true ∧ b.active = true)

/-- At most one document per user is active. -/
def atMostOneActive (docs : List Document) : Prop :=
  docs.Pairwise noDoubleActive

/-- Primary-key uniqueness of document ids. -/
def uniqueIds (docs : List Document) : Prop :=
  docs.Pairwise fun a b => a.id ≠ b.id

instance : DecidableRel noDoubleActive := fun a b => by
  unfold noDoubleActive; infer_instance

instance (docs : List Document) : Decidable (atMostOneActive docs) := by
  unfold atMostOneActive; infer_instance

instance (docs : List Document) : Decidable (uniqueIds docs) := by
  unfold uniqueIds; infer_instance

/-! ## Lemmas about the scan loop -/

theorem length_dropWhile_le (p : Char → Bool) (l : List Char) :
    (l.dropWhile p).length ≤ l.length := by
  induction l with
  | nil => simp
  | cons c rest ih =>
    rw [List.dropWhile_cons]
    split
    · exact ih.trans (Nat.le_succ _)
    · exact Nat.le_refl _

theorem stripChars_length_le (l : List Char) :
    (stripChars l).length ≤ l.length := by
  unfold stripChars
  rw [List.length_reverse]
  calc ((l.dropWhile isPyWhitespace).reverse.dropWhile isPyWhitespace).length
      ≤ (l.dropWhile isPyWhitespace).reverse.length :=
        length_dropWhile_le _ _
    _ = (l.dropWhile isPyWhitespace).length := List.length_reverse _
    _ ≤ l.length := length_dropWhile_le _ _

theorem rfindSpace_lt_length {l : List Char} {j : Nat}
    (h : rfindSpace l = some j) : j < l.length := by
  induction l generalizing j with
  | nil => simp [rfindSpace] at h
  | cons c rest ih =>
    cases hr : rfindSpace rest with
    | some j0 =>
      simp only [rfindSpace, hr] at h
      obtain rfl : j0 + 1 = j := by simpa using h
      exact Nat.succ_lt_succ (ih hr)
    | none =>
      simp only [rfindSpace, hr] at h
      by_cases hc : c = ' '
      · obtain rfl : 0 = j := by simpa [hc] using h
        exact Nat.succ_pos _
      · simp [hc] at h

theorem rfindSpace_none_spec {l : List Char} (h : rfindSpace l = none) :
    ∀ k, k < l.length → l.getD k ' ' ≠ ' ' := by
  induction l with
  | nil => intro k hk; simp at hk
  | cons c rest ih =>
    cases hr : rfindSpace rest with
    | some j0 => simp [rfindSpace, hr] at h
    | none =>
      simp only [rfindSpace, hr] at h
      by_cases hc : c = ' '
      · simp [hc] at h
      · intro k hk
        match k with
        | 0 =>
          rw [List.getD_cons_zero]
          exact hc
        | k' + 1 =>
          rw [List.getD_cons_succ]
          exact ih hr k' (by simpa using hk)

theorem rfindSpace_some_spec {l : List Char} {j : Nat}
    (h : rfindSpace l = some j) :
    j < l.length ∧ l.getD j ' ' = ' '
      ∧ ∀ k, j < k → k < l.length → l.getD k ' ' ≠ ' ' := by
  induction l generalizing j with
  | nil => simp [rfindSpace] at h
  | cons c rest ih =>
    cases hr : rfindSpace rest with
    | some j0 =>
      simp only [rfindSpace, hr] at h
      obtain rfl : j0 + 1 = j := by simpa using h
      obtain ⟨h1, h2, h3⟩ := ih hr
      refine ⟨Nat.succ_lt_succ h1, by simpa using h2, ?_⟩
      intro k hk1 hk2
      match k with
      | k' + 1 =>
        rw [List.getD_cons_succ]
        exact h3 k' (Nat.lt_of_succ_lt_succ hk1) (by simpa using hk2)
    | none =>
      simp only [rfindSpace, hr] at h
      by_cases hc : c = ' '
      · obtain rfl : 0 = j := by simpa [hc] using h
        refine ⟨Nat.succ_pos _, by simpa using hc, ?_⟩
        intro k hk1 hk2
        match k with
        | k' + 1 =>
          rw [List.getD_cons_succ]
          exact rfindSpace_none_spec hr k' (by simpa using hk2)
      · simp [hc] at h

theorem hardCapWindow_length_le (r : List Char) (i : Nat) :
    (hardCapWindow r i).length ≤ i + 1 - (i - 100) := by
  unfold hardCapWindow
  rw [List.length_take]
  exact min_le_left _ _

theorem hardCapWindow_length_eq (r : List Char) (i : Nat) (h : i < r.length) :
    (hardCapWindow r i).length = i + 1 - (i - 100) := by
  unfold hardCapWindow
  rw [List.length_take, List.length_drop]
  omega

theorem hardCapCut_le (r : List Char) (i : Nat) : hardCapCut r i ≤ i + 1 := by
  unfold hardCapCut
  split
  · rename_i j hr
    have hj := rfindSpace_lt_length hr
    omega
  · exact Nat.le_refl _

theorem hardCapCut_pos (r : List Char) (i : Nat) (h : 101 ≤ i) :
    1 ≤ hardCapCut r i := by
  unfold hardCapCut
  split
  · rename_i j hr
    have hlen := hardCapWindow_length_le r i
    omega
  · omega

theorem scanAux_some_le_length {mn mx : Nat} {r : List Char} :
    ∀ (fuel : List Char) (i rel : Nat), r.length = i + fuel.length →
      scanAux mn mx r fuel i = some rel → rel ≤ r.length := by
  intro fuel
  induction fuel with
  | nil => intro i rel _ hscan; simp [scanAux] at hscan
  | cons c rest ih =>
    intro i rel hlen hscan
    rw [scanAux] at hscan
    split at hscan
    · obtain rfl : i + 1 = rel := by simpa using hscan
      simp at hlen
      omega
    · split at hscan
      · obtain rfl : hardCapCut r i = rel := by simpa using hscan
        have := hardCapCut_le r i
        simp at hlen
        omega
      · exact ih (i + 1) rel (by simp at hlen ⊢; omega) hscan

theorem scanAux_some_one_le {mn mx : Nat} {r : List Char} (hmx : 102 ≤ mx) :
    ∀ (fuel : List Char) (i rel : Nat),
      scanAux mn mx r fuel i = some rel → 1 ≤ rel := by
  intro fuel
  induction fuel with
  | nil => intro i rel hscan; simp [scanAux] at hscan
  | cons c rest ih =>
    intro i rel hscan
    rw [scanAux] at hscan
    split at hscan
    · obtain rfl : i + 1 = rel := by simpa using hscan
      omega
    · split at hscan
      · obtain rfl : hardCapCut r i = rel := by simpa using hscan
        rename_i hcap
        exact hardCapCut_pos r i (by omega)
      · exact ih (i + 1) rel hscan

theorem scanAux_some_le_mx {mn mx : Nat} {r : List Char} :
    ∀ (fuel : List Char) (i rel : Nat), i + 1 ≤ mx →
      scanAux mn mx r fuel i = some rel → rel ≤ mx := by
  intro fuel
  induction fuel with
  | nil => intro i rel _ hscan; simp [scanAux] at hscan
  | cons c rest ih =>
    intro i rel hi hscan
    rw [scanAux] at hscan
    split at hscan
    · obtain rfl : i + 1 = rel := by simpa using hscan
      exact hi
    · split at hscan
      · obtain rfl : hardCapCut r i = rel := by simpa using hscan
        exact (hardCapCut_le r i).trans hi
      · rename_i hcap
        exact ih (i + 1) rel (by omega) hscan

theorem scanAux_none {mn mx : Nat} {r : List Char} :
    ∀ (fuel : List Char) (i : Nat), scanAux mn mx r fuel i = none →
      fuel = [] ∨ i + fuel.length < mx := by
  intro fuel
  induction fuel with
  | nil => intro i _; exact Or.inl rfl
  | cons c rest ih =>
    intro i hscan
    rw [scanAux] at hscan
    split at hscan
    · simp at hscan
    · split at hscan
      · simp at hscan
      · rename_i hcap
        rcases ih (i + 1) hscan with h | h
        · subst h; right; simpa using by omega
        · right; simp at h ⊢; omega

theorem scanFrom_some_le_length {mn mx : Nat} {r : List Char} {rel : Nat}
    (h : scanFrom r mn mx = some rel) : rel ≤ r.length := by
  unfold scanFrom at h
  exact scanAux_some_le_length r 0 rel (by simp) h

theorem scanFrom_some_one_le {mn mx : Nat} {r : List Char} {rel : Nat}
    (hmx : 102 ≤ mx) (h : scanFrom r mn mx = some rel) : 1 ≤ rel := by
  unfold scanFrom at h
  exact scanAux_some_one_le hmx r 0 rel h

theorem scanFrom_some_le_mx {mn mx : Nat} {r : List Char} {rel : Nat}
    (hmx : 1 ≤ mx) (h : scanFrom r mn mx = some rel) : rel ≤ mx := by
  unfold scanFrom at h
  exact scanAux_some_le_mx r 0 rel hmx h

theorem scanFrom_none {mn mx : Nat} {r : List Char}
    (h : scanFrom r mn mx = none) : r = [] ∨ r.length < mx := by
  unfold scanFrom at h
  simpa using scanAux_none r 0 h

/-! ## Lemmas about `paragraphEnd` and `get_next_paragraph` -/

theorem paragraphEnd_le (content : List Char) (pos mn mx : Nat)
    (h : pos ≤ content.length) :
    paragraphEnd content pos mn mx ≤ content.length := by
  unfold paragraphEnd
  split
  · rename_i rel hs
    have h1 := scanFrom_some_le_length hs
    rw [List.length_drop] at h1
    omega
  · exact Nat.le_refl _

theorem paragraphEnd_ge (content : List Char) (pos mn mx : Nat)
    (h : pos ≤ content.length) :
    pos ≤ paragraphEnd content pos mn mx := by
  unfold paragraphEnd
  split
  · exact Nat.le_add_right _ _
  · exact h

theorem paragraphEnd_gt (content : List Char) (pos mn mx : Nat)
    (h : pos < content.length) (hmx : 102 ≤ mx) :
    pos < paragraphEnd content pos mn mx := by
  unfold paragraphEnd
  split
  · rename_i rel hs
    have h1 := scanFrom_some_one_le hmx hs
    omega
  · exact h

theorem paragraphEnd_span (content : List Char) (pos mn mx : Nat)
    (h : pos < content.length) (hmx : 1 ≤ mx) :
    paragraphEnd content pos mn mx - pos ≤ mx := by
  unfold paragraphEnd
  split
  · rename_i rel hs
    have h1 := scanFrom_some_le_mx hmx hs
    omega
  · rename_i hs
    rcases scanFrom_none hs with he | hlt
    · have : content.length - pos = 0 := by
        rw [← List.length_drop, he]; rfl
      omega
    · rw [List.length_drop] at hlt
      omega

theorem get_next_paragraph_terminal (content : List Char) (pos mn mx : Nat)
    (h : content.length ≤ pos) :
    get_next_paragraph content pos mn mx = ⟨finDelDocumento, pos, true⟩ := by
  unfold get_next_paragraph
  rw [if_pos h]

theorem get_next_paragraph_newOffset (content : List Char) (pos mn mx : Nat)
    (h : pos < content.length) :
    (get_next_paragraph content pos mn mx).newOffset
      = paragraphEnd content pos mn mx := by
  unfold get_next_paragraph
  rw [if_neg (by omega)]

theorem get_next_paragraph_fragment (content : List Char) (pos mn mx : Nat)
    (h : pos < content.length) :
    (get_next_paragraph content pos mn mx).fragment
      = stripChars
          ((content.drop pos).take (paragraphEnd content pos mn mx - pos)) := by
  unfold get_next_paragraph
  rw [if_neg (by omega)]

/-! ## Lemmas about the iterated cursor (default lengths 100/500) -/

theorem nextOffset_ge (content : List Char) (pos : Nat) :
    pos ≤ nextOffset content pos := by
  unfold nextOffset
  by_cases h : content.length ≤ pos
  · rw [get_next_paragraph_terminal content pos 100 500 h]
  · rw [get_next_paragraph_newOffset content pos 100 500 (by omega)]
    exact paragraphEnd_ge content pos 100 500 (by omega)

theorem nextOffset_le (content : List Char) (pos : Nat)
    (h : pos ≤ content.length) :
    nextOffset content pos ≤ content.length := by
  unfold nextOffset
  by_cases h2 : content.length ≤ pos
  · rw [get_next_paragraph_terminal content pos 100 500 h2]
    exact h
  · rw [get_next_paragraph_newOffset content pos 100 500 (by omega)]
    exact paragraphEnd_le content pos 100 500 h

theorem nextOffset_gt (content : List Char) (pos : Nat)
    (h : pos < content.length) :
    pos < nextOffset content pos := by
  unfold nextOffset
  rw [get_next_paragraph_newOffset content pos 100 500 h]
  exact paragraphEnd_gt content pos 100 500 h (by omega)

theorem nextOffset_terminal (content : List Char) (pos : Nat)
    (h : content.length ≤ pos) : nextOffset content pos = pos := by
  unfold nextOffset
  rw [get_next_paragraph_terminal content pos 100 500 h]

theorem offsetAfter_le (content : List Char) :
    ∀ n, offsetAfter content n ≤ content.length := by
  intro n
  induction n with
  | zero => exact Nat.zero_le _
  | succ n ih => exact nextOffset_le content _ ih

theorem collectUntrimmed_eq_take (content : List Char) :
    ∀ n, collectUntrimmed content n = content.take (offsetAfter content n) := by
  intro n
  induction n with
  | zero => rfl
  | succ n ih =>
    show collectUntrimmed content n
        ++ untrimmedFragment content (offsetAfter content n)
      = content.take (offsetAfter content (n + 1))
    rw [ih]
    unfold untrimmedFragment
    rw [← List.take_add]
    have hge := nextOffset_ge content (offsetAfter content n)
    have : offsetAfter content n
        + (nextOffset content (offsetAfter content n) - offsetAfter content n)
        = nextOffset content (offsetAfter content n) := by omega
    rw [this]
    rfl

theorem offsetAfter_reach (content : List Char) :
    ∀ n, offsetAfter content n = content.length ∨ n ≤ offsetAfter content n := by
  intro n
  induction n with
  | zero => exact Or.inr (Nat.le_refl _)
  | succ n ih =>
    by_cases he : offsetAfter content n = content.length
    · left
      show nextOffset content (offsetAfter content n) = content.length
      rw [he, nextOffset_terminal content _ (Nat.le_refl _)]
    · rcases ih with h | h
      · exact absurd h he
      · have hlt : offsetAfter content n < content.length :=
          Nat.lt_of_le_of_ne (offsetAfter_le content n) he
        right
        have := nextOffset_gt content _ hlt
        show n + 1 ≤ nextOffset content (offsetAfter content n)
        omega

theorem offsetAfter_length (content : List Char) :
    offsetAfter content content.length = content.length := by
  rcases offsetAfter_reach content content.length with h | h
  · exact h
  · exact Nat.le_antisymm (offsetAfter_le content _) h

/-! ## Lemmas about the float progress model -/

theorem ratLog2_diag (l : Nat) (hl : l ≠ 0) : ratLog2 l l = 0 := by
  unfold ratLog2
  rw [if_pos (Nat.le_refl l), Nat.div_self (Nat.pos_of_ne_zero hl)]
  decide

theorem fpRoundRat_diag (l : Nat) (hl : l ≠ 0) :
    fpRoundRat l l = (2 ^ 52, -52) := by
  unfold fpRoundRat
  rw [ratLog2_diag l hl]
  rw [if_neg (by decide : ¬ (0 : Int) ≤ 0 - 52)]
  have he : (-((0 : Int) - 52)).toNat = 52 := by decide
  rw [he]
  have hq : l * 2 ^ 52 / l = 2 ^ 52 :=
    Nat.mul_div_cancel_left _ (Nat.pos_of_ne_zero hl)
  have hr : l * 2 ^ 52 % l = 0 := Nat.mul_mod_right l (2 ^ 52)
  unfold roundNearestEven
  rw [hr, hq]
  rw [if_pos (by omega : 2 * 0 < l)]
  decide

theorem pyProgressValue_diag (l : Nat) (hl : l ≠ 0) :
    pyProgressValue l l = 100 := by
  unfold pyProgressValue
  rw [if_neg hl, fpRoundRat_diag l hl]
  decide

/-! ## The claims -/

set_option maxRecDepth 10000

/-- C1, counterexample.  For `text = "ab c. X"`, `offset = 0`, `minLen = 2`,
`maxLen = 5`, the scan meets a qualifying punctuation (`'.'` followed by a
space) exactly at the step where `scanned == maxLen` (`i = 4`,
`scanned = 5`).  The claim says the hard-cap rule fires unconditionally on
that step, which would cut at `offset + hardCapCut = 2` (the last space,
exclusive); the code instead takes the natural-boundary cut `5`. -/
theorem natural_cut_at_cap_counterexample :
    naturalCond ("ab c. X".data.drop 4) = true
    ∧ (4 : Nat) + 1 = 5
    ∧ (get_next_paragraph "ab c. X".data 0 2 5).newOffset = 5
    ∧ (get_next_paragraph "ab c. X".data 0 2 5).newOffset
        ≠ 0 + hardCapCut "ab c. X".data 4 := by
  decide

/-- C1, amended.  Within the scan step where `scanned == maxLen`
(`i + 1 = mx`), the natural-boundary test is evaluated before the hard cap:
if the punctuation condition holds there and `scanned ≥ minLen`, the scan
cuts at the natural boundary (`some (i+1)`), not at the hard-cap position;
the hard cap fires on that step only when the natural test fails. -/
theorem natural_boundary_checked_before_hardcap (mn mx i : Nat)
    (r rest : List Char) (c : Char) (hcap : i + 1 = mx)
    (hnat : naturalCond (c :: rest) = true) (hmn : mn ≤ i + 1) :
    scanAux mn mx r (c :: rest) i = some (i + 1) := by
  rw [scanAux, if_pos ⟨hnat, hmn⟩]

theorem natural_boundary_checked_before_hardcap_witness :
    scanAux 2 5 "ab c. X".data ('.' :: " X".data) 4 = some 5 :=
  natural_boundary_checked_before_hardcap 2 5 4 "ab c. X".data " X".data '.'
    rfl (by decide) (by decide)

/-- C2, counterexample.  Scenario A: the returned fragment is
`"Hello world."` but `newOffset = 12`, the position just after the
punctuation mark — not `13`, the position past the substring
`"Hello world. "` (punctuation plus the following space) that the claim
names. -/
theorem scenarioA_newOffset_counterexample :
    (get_next_paragraph
        "Hello world. This is a test of segmentation. Goodbye!".data
        0 10 500).fragment = "Hello world.".data
    ∧ ("Hello world. ".data).length = 13
    ∧ (get_next_paragraph
        "Hello world. This is a test of segmentation. Goodbye!".data
        0 10 500).newOffset ≠ 13 := by
  decide

/-- C2, amended.  Scenario A: text
`"Hello world. This is a test of segmentation. Goodbye!"`, offset 0,
minLen 10, maxLen 500 yields the fragment `"Hello world."` and
`newOffset = 12`, pointing just after the punctuation mark; the following
space is not consumed by the cursor. -/
theorem scenarioA_result :
    get_next_paragraph
        "Hello world. This is a test of segmentation. Goodbye!".data
        0 10 500
      = ⟨"Hello world.".data, 12, false⟩ := by
  decide

/-- C3.  For every text and every valid offset, the cursor after one call
(default lengths 100/500, the only ones the repository uses) is monotone
and bounded: `offset ≤ newOffset ≤ len(text)`, with `newOffset = offset`
exactly when `offset = len(text)`; and in that terminal state the call
returns the terminal message with `isFinal = true` and the cursor
unchanged, identically on every repetition (the function is pure and
total, so repeated terminal calls return this same result unboundedly and
no error path exists). -/
theorem cursor_monotonic_and_terminal (content : List Char) (pos : Nat)
    (hpos : pos ≤ content.length) :
    pos ≤ (get_next_paragraph content pos 100 500).newOffset
    ∧ (get_next_paragraph content pos 100 500).newOffset ≤ content.length
    ∧ ((get_next_paragraph content pos 100 500).newOffset = pos
        ↔ pos = content.length)
    ∧ (pos = content.length →
        get_next_paragraph content pos 100 500
          = ⟨finDelDocumento, pos, true⟩) := by
  by_cases h : pos < content.length
  · rw [get_next_paragraph_newOffset content pos 100 500 h]
    have hgt := paragraphEnd_gt content pos 100 500 h (by omega)
    have hle := paragraphEnd_le content pos 100 500 (by omega)
    refine ⟨by omega, by omega, ?_, fun h2 => absurd h2 (by omega)⟩
    constructor <;> (intro h2; omega)
  · have heq : pos = content.length := by omega
    rw [get_next_paragraph_terminal content pos 100 500 (by omega)]
    refine ⟨Nat.le_refl _, ?_, ?_, fun _ => rfl⟩
    · show pos ≤ content.length
      omega
    · show pos = pos ↔ pos = content.length
      simp [heq]

theorem cursor_monotonic_and_terminal_witness :
    (get_next_paragraph "ab".data 0 100 500).newOffset
      ≤ ("ab".data).length :=
  (cursor_monotonic_and_terminal "ab".data 0 (by decide)).2.1

/-- C4, counterexample.  Text of 399 `'a'`, one space, then 200 `'a'`
(length 600), offset 0, minLen 100, maxLen 500: the hard cap fires at
`scanned = 500` and no space occurs within the last 100 scanned characters
(positions 400–499 are all `'a'`), so the claim requires a cut exactly at
`maxLen` (`newOffset = 500`); the code's look-back slice
`remaining[i-100 : i+1]` spans 101 characters and finds the space at
position 399, cutting there (`newOffset = 399`). -/
theorem hardcap_window_counterexample :
    (get_next_paragraph
        (List.replicate 399 'a' ++ ' ' :: List.replicate 200 'a')
        0 100 500).newOffset = 399
    ∧ (((List.replicate 399 'a' ++ ' ' :: List.replicate 200 'a').drop
          400).take 100).all (fun c => decide (c ≠ ' ')) = true
    ∧ (399 : Nat) ≠ 500 := by
  decide

/-- C4, amended.  When the hard cap fires at scan index `i`, the code
searches the slice `remaining[max(0, i-100) : i+1]` — the last
`min(scanned, 101)` scanned characters, one more than the stated 100 — for
its last space: if one exists at slice index `j` it cuts at absolute
position `(i - 100) + j`, the position of that space, which the fragment
(ending at the cut) excludes, and no later character of the slice is a
space; if the slice has no space the cut is exactly `i + 1 = maxLen`
characters after the offset.  Scenario B (600 `'a'`s, 100/500) is
unaffected: no space anywhere, so the fragment is the first 500
characters, `newOffset = 500`, `isFinal = false`. -/
theorem hardcap_cut_spec :
    (∀ (r : List Char) (i j : Nat), i < r.length →
        rfindSpace (hardCapWindow r i) = some j →
        hardCapCut r i = (i - 100) + j
        ∧ (hardCapWindow r i).getD j ' ' = ' '
        ∧ ∀ k, j < k → k < (hardCapWindow r i).length →
            (hardCapWindow r i).getD k ' ' ≠ ' ')
    ∧ (∀ (r : List Char) (i : Nat),
        rfindSpace (hardCapWindow r i) = none → hardCapCut r i = i + 1)
    ∧ get_next_paragraph (List.replicate 600 'a') 0 100 500
        = ⟨List.replicate 500 'a', 500, false⟩ := by
  refine ⟨?_, ?_, by decide⟩
  · intro r i j hi hr
    have hspec := rfindSpace_some_spec hr
    have hlen := hardCapWindow_length_eq r i hi
    refine ⟨?_, hspec.2.1, hspec.2.2⟩
    unfold hardCapCut
    rw [hr]
    show i + 1 + j - (hardCapWindow r i).length = i - 100 + j
    have hj := hspec.1
    omega
  · intro r i hr
    unfold hardCapCut
    rw [hr]

theorem hardcap_cut_spec_witness :
    hardCapCut " ab".data 2 = 2 - 100 + 0 :=
  (hardcap_cut_spec.1 " ab".data 2 0 (by decide) (by decide)).1

/-- C5, counterexample.  With `minLen = maxLen = 0` (which satisfies the
claim's `minLen ≤ maxLen`) on the text `"ab"` at offset 0, the scanned
span is 1, exceeding `maxLen = 0`: the loop always examines at least one
character before the cap test, so a span of at least one character is
unavoidable. -/
theorem span_bound_counterexample :
    (0 : Nat) ≤ 0
    ∧ 0 < ("ab".data).length
    ∧ ¬((get_next_paragraph "ab".data 0 0 0).newOffset - 0 ≤ 0) := by
  decide

/-- C5, amended.  For every text, every non-terminal valid offset, and
every `minLen ≤ maxLen` with `maxLen ≥ 1`, the scanned span of one call is
bounded by the maximum: `newOffset - offset ≤ maxLen`, under every rule
(natural boundary, hard cap, tail). -/
theorem span_le_maxLen (content : List Char) (pos mn mx : Nat)
    (hpos : pos < content.length) (hmn : mn ≤ mx) (hmx : 1 ≤ mx) :
    (get_next_paragraph content pos mn mx).newOffset - pos ≤ mx := by
  rw [get_next_paragraph_newOffset content pos mn mx hpos]
  exact paragraphEnd_span content pos mn mx hpos hmx

theorem span_le_maxLen_witness :
    (get_next_paragraph "abcd".data 1 100 500).newOffset - 1 ≤ 500 :=
  span_le_maxLen "abcd".data 1 100 500 (by decide) (by decide) (by decide)

/-- C6, counterexample.  Two failures of the claim at concrete program
states.  (1) A document with empty text at its only valid offset 0 is
terminal (`offset = len(text)`), yet reports progress 0, not the 100 the
claim's terminal clause requires.  (2) The program evaluates the
percentage in binary64 float arithmetic, not exact arithmetic: on the
1000-character `floatBoundaryText`, two default-length advances from 0
put the cursor at offset 290 — a reachable state — where the program
computes `int((290 / 1000) * 100) = int(28.999999999999996) = 28`, while
the claim's formula `min(100, floor(290 / 1000 * 100))` gives 29. -/
theorem progress_empty_terminal_counterexample :
    (([] : List Char).length = 0
      ∧ (get_next_paragraph ([] : List Char) 0 100 500).isFinal = true
      ∧ get_progress_percentage ([] : List Char) 0 = 0
      ∧ get_progress_percentage ([] : List Char) 0 ≠ 100)
    ∧ (floatBoundaryText.length = 1000
      ∧ offsetAfter floatBoundaryText 2 = 290
      ∧ get_progress_percentage floatBoundaryText 290 = 28
      ∧ specProgressFormula 290 floatBoundaryText.length = 29) := by
  decide

/-- C6, amended.  The reported progress always lies in `[0, 100]` and, for
non-empty text, equals `min(100, int((offset / len(text)) * 100))` with
the inner expression evaluated in binary64 float arithmetic — which can
round below the claim's exact floor (offset 290 of a 1000-character
document reports 28, not 29); a document with empty text reports 0%.
When `offset = len(text)` the call returns the terminal fragment
(`"Fin del documento."`) with `isFinal = true` and an unchanged cursor,
and the float computation yields exactly 100 whenever the text is
non-empty (`len/len` rounds to exactly 1.0 and `1.0 * 100` is exact; the
empty document reports 0 even then). -/
theorem progress_formula_and_terminal (content : List Char) (pos : Nat) :
    get_progress_percentage content pos ≤ 100
    ∧ (content.length = 0 → get_progress_percentage content pos = 0)
    ∧ (content.length ≠ 0 →
        get_progress_percentage content pos
          = min 100 (pyProgressValue pos content.length))
    ∧ (pos = content.length →
        (get_next_paragraph content pos 100 500).fragment = finDelDocumento
        ∧ (get_next_paragraph content pos 100 500).isFinal = true
        ∧ (get_next_paragraph content pos 100 500).newOffset = pos
        ∧ (content.length ≠ 0 → get_progress_percentage content pos = 100)) := by
  refine ⟨?_, ?_, ?_, ?_⟩
  · unfold get_progress_percentage
    split
    · omega
    · exact min_le_left _ _
  · intro h
    unfold get_progress_percentage
    rw [if_pos h]
  · intro h
    unfold get_progress_percentage
    rw [if_neg h]
  · intro h
    rw [get_next_paragraph_terminal content pos 100 500 (by omega)]
    refine ⟨rfl, rfl, rfl, ?_⟩
    intro hne
    unfold get_progress_percentage
    rw [if_neg hne]
    subst h
    rw [pyProgressValue_diag content.length hne]
    exact min_self 100

theorem progress_formula_and_terminal_witness :
    get_progress_percentage "ab".data 2 = 100 :=
  ((progress_formula_and_terminal "ab".data 2).2.2.2 (by decide)).2.2.2
    (by decide)

/-- C7.  If the extracted text is shorter than 10 characters, the upload
handler rejects it with `EmptyExtraction` before any database session is
opened: the store is returned unchanged, so no document is created and the
user's prior active document — indeed every stored document — keeps every
field. -/
theorem short_extraction_rejected (docs : List Document) (uid newId : Nat)
    (filename text : List Char) (h : text.length < 10) :
    handle_document_upload docs uid newId filename text
      = (docs, some IngestError.emptyExtraction) := by
  have hs := stripChars_length_le text
  unfold handle_document_upload
  rw [if_pos (Or.inr (by omega))]

theorem short_extraction_rejected_witness :
    handle_document_upload
        [⟨1, 7, "old.pdf".data, "abcdefghijkl".data, 4, true⟩]
        7 2 "f.pdf".data "abcde".data
      = ([⟨1, 7, "old.pdf".data, "abcdefghijkl".data, 4, true⟩],
          some IngestError.emptyExtraction) :=
  short_extraction_rejected _ 7 2 _ _ (by decide)

/-- C8.  Given primary-key-unique document ids and the invariant that at
most one document per user is active: `save_document` (the store effect of
successful ingestion: deactivate all of the user's documents, then insert
the new one as active, in one session) re-establishes the invariant;
`activate_document` on an id that no stored document of the requesting
user carries returns not-found with the store unchanged; and
`activate_document` always preserves the invariant (on success it sets
`active` on exactly the target and clears it on every sibling). -/
theorem single_active_invariant (docs : List Document)
    (uid newId document_id : Nat) (filename content : List Char)
    (hids : uniqueIds docs) (hinv : atMostOneActive docs) :
    atMostOneActive (save_document docs uid newId filename content)
    ∧ ((∀ d ∈ docs, ¬(d.id = document_id ∧ d.userId = uid)) →
        activate_document docs document_id uid = (docs, false))
    ∧ atMostOneActive (activate_document docs document_id uid).1 := by
  refine ⟨?_, ?_, ?_⟩
  · unfold save_document deactivateUserDocs atMostOneActive
    rw [List.pairwise_append]
    refine ⟨?_, List.pairwise_singleton _ _, ?_⟩
    · rw [List.pairwise_map]
      refine hinv.imp ?_
      intro a b hab hcon
      obtain ⟨h1, h2, h3⟩ := hcon
      by_cases ha : a.userId = uid
      · rw [if_pos ha] at h2
        simp at h2
      · by_cases hb : b.userId = uid
        · rw [if_pos hb] at h3
          simp at h3
        · rw [if_neg ha] at h1 h2
          rw [if_neg hb] at h1 h3
          exact hab ⟨h1, h2, h3⟩
    · intro a hamem b hbmem
      obtain rfl : b = ⟨newId, uid, filename, content, 0, true⟩ := by
        simpa using hbmem
      obtain ⟨d, _, rfl⟩ := List.mem_map.mp hamem
      intro hcon
      obtain ⟨h1, h2, h3⟩ := hcon
      by_cases hdu : d.userId = uid
      · rw [if_pos hdu] at h2
        simp at h2
      · rw [if_neg hdu] at h1
        exact hdu (by simpa using h1)
  · intro hnone
    unfold activate_document
    have hfind : docs.find?
        (fun d => decide (d.id = document_id ∧ d.userId = uid)) = none := by
      rw [List.find?_eq_none]
      intro x hx
      simpa using hnone x hx
    rw [hfind]
  · unfold activate_document
    cases hf : docs.find?
        (fun d => decide (d.id = document_id ∧ d.userId = uid)) with
    | none => exact hinv
    | some d0 =>
      show atMostOneActive (docs.map fun d =>
        if d.userId = uid then { d with active := decide (d.id = document_id) }
        else d)
      unfold atMostOneActive
      rw [List.pairwise_map]
      have hcomb : docs.Pairwise
          (fun a b => a.id ≠ b.id ∧ noDoubleActive a b) :=
        List.Pairwise.and hids hinv
      refine hcomb.imp ?_
      intro a b hab hcon
      obtain ⟨hid, hnd⟩ := hab
      obtain ⟨h1, h2, h3⟩ := hcon
      by_cases ha : a.userId = uid
      · by_cases hb : b.userId = uid
        · rw [if_pos ha] at h2
          rw [if_pos hb] at h3
          simp at h2 h3
          exact hid (h2.trans h3.symm)
        · rw [if_pos ha, if_neg hb] at h1
          simp at h1
          exact hb (by rw [← h1]; exact ha)
      · by_cases hb : b.userId = uid
        · rw [if_neg ha, if_pos hb] at h1
          simp at h1
          exact ha (h1.trans hb)
        · rw [if_neg ha] at h1 h2
          rw [if_neg hb] at h1 h3
          exact hnd ⟨h1, h2, h3⟩

theorem single_active_invariant_witness :
    atMostOneActive
      (activate_document
        [⟨1, 7, "a.pdf".data, "x".data, 0, true⟩,
         ⟨2, 7, "b.pdf".data, "y".data, 3, false⟩] 2 7).1 :=
  (single_active_invariant
      [⟨1, 7, "a.pdf".data, "x".data, 0, true⟩,
       ⟨2, 7, "b.pdf".data, "y".data, 3, false⟩]
      7 99 2 [] [] (by decide) (by decide)).2.2

/-- C10.  At the default lengths (the only ones used by the repository's
call sites): for every non-terminal offset, the returned fragment is the
whitespace-trim of exactly the substring `text[offset : newOffset]`
(trimming affects only the returned value, never the cursor); and the
untrimmed fragments of successive calls from offset 0 are contiguous
slices `text[o_n : o_{n+1}]` whose concatenation, once the cursor reaches
the end (after at most `len(text)` calls), is the entire text — no
character delivered twice, none dropped. -/
theorem fragments_partition_text (content : List Char) :
    (∀ pos, pos < content.length →
        (get_next_paragraph content pos 100 500).fragment
          = stripChars (untrimmedFragment content pos))
    ∧ collectUntrimmed content content.length = content := by
  constructor
  · intro pos hpos
    rw [get_next_paragraph_fragment content pos 100 500 hpos]
    unfold untrimmedFragment nextOffset
    rw [get_next_paragraph_newOffset content pos 100 500 hpos]
  · rw [collectUntrimmed_eq_take content content.length,
      offsetAfter_length, List.take_length]

theorem fragments_partition_text_witness :
    (get_next_paragraph "ab".data 0 100 500).fragment
      = stripChars (untrimmedFragment "ab".data 0) :=
  (fragments_partition_text "ab".data).1 0 (by decide)

